import Mathlib

/-!
Verification development for the evaluation-report upload pipeline
(`file_main_processing.py`, `canvas_client.py`).

Filenames and identifiers are modelled as `List Char`; machine integers as
`Int`; Python floats as exact rationals `ℚ` (all quota arithmetic in the
source divides integers by the power of two `1024 * 1024`, which is exact
for realistic quota magnitudes); fallible operations return `Option`; a
raised-and-caught Python exception that aborts a loop is an `Except`.
Network responses and the LMS folder store are modelled as explicit
oracles / state so that the repository's own control flow is embedded
faithfully, line by line.
-/

/-! ### Character classes

`isIdChar` is the character class `[a-zA-Z0-9()-]` of the two regexes in
`extract_unique_usernames_from_files`; `isWordChar` is Python's `\w`
(restricted to ASCII, which covers every identifier the pipeline produces).
-/

def isIdChar (c : Char) : Bool :=
  c.isAlphanum || c == '-' || c == '(' || c == ')'

def isWordChar (c : Char) : Bool :=
  c.isAlphanum || c == '_'

/-! ### Generic list helpers -/

/-- `startsWithL p s` holds when `p` is a prefix of the character list `s`. -/
def startsWithL : List Char → List Char → Bool
  | [], _ => true
  | _ :: _, [] => false
  | a :: as, b :: bs => a == b && startsWithL as bs

/-- `containsSeq pat s`: `pat` occurs as a contiguous substring of `s`. -/
def containsSeq (pat : List Char) : List Char → Bool
  | [] => startsWithL pat []
  | c :: cs => startsWithL pat (c :: cs) || containsSeq pat cs

/-! ### Username extractor (`extract_unique_usernames_from_files`, lines 29-62)

The two regexes are `.*_[a-zA-Z0-9()-]+\.\w+$` (the acceptance filter,
`re.match`, anchored at the start) and `_([a-zA-Z0-9()-]+)\.\w+$`
(`re.search`, leftmost match, group 1).  Python's `.` does not match a
newline, and `$` matches at the end of the string or just before one final
trailing newline; both behaviours are embedded.
-/

/-- `tailOk t`: the regex fragment `\w+$` matches all of `t`, i.e. `t` is a
nonempty word-character run optionally followed by one final newline. -/
def tailOk : List Char → Bool
  | [] => false
  | [c] => isWordChar c
  | c :: c2 :: rest => isWordChar c && (tailOk (c2 :: rest) || (c2 == '\n' && rest.isEmpty))

/-- `matchAt s`: attempt the regex `_([a-zA-Z0-9()-]+)\.\w+$` anchored at the
head of `s`; returns the captured group.  The group is the maximal run of
identifier characters after the underscore (backtracking cannot shorten it,
since a shorter run would leave an identifier character where the literal
dot is required). -/
def matchAt : List Char → Option (List Char)
  | [] => none
  | c :: rest =>
    if c = '_' then
      let r := rest.takeWhile isIdChar
      if r = [] then none
      else
        match rest.dropWhile isIdChar with
        | [] => none
        | d :: t2 => if d = '.' then (if tailOk t2 then some r else none) else none
    else none

/-- `searchGroup s`: Python `re.search(r"_([a-zA-Z0-9()-]+)\.\w+$", s)`,
returning group 1 of the leftmost match. -/
def searchGroup : List Char → Option (List Char)
  | [] => none
  | c :: cs =>
    match matchAt (c :: cs) with
    | some r => some r
    | none => searchGroup cs

/-- `filterAccepts s`: Python `re.match(r".*_[a-zA-Z0-9()-]+\.\w+$", s)` is
truthy.  `.*` consumes any prefix free of newlines; the rest of the pattern
is exactly `matchAt`. -/
def filterAccepts : List Char → Bool
  | [] => false
  | c :: cs => (matchAt (c :: cs)).isSome || (c != '\n' && filterAccepts cs)

/-- Adding a username to the accumulated set (`usernames_set.add`): the
result list stays duplicate-free. -/
def insertUnique (acc : List (List Char)) (u : List Char) : List (List Char) :=
  if u ∈ acc then acc else acc ++ [u]

/-- One iteration of the extractor's file loop (lines 43-56): skip files the
filter rejects; otherwise search for the group and add it to the set.  (When
the filter accepts, the search always succeeds; the `if not match` error
branch of line 50 is unreachable and maps to the `none` case.) -/
def extractStep (acc : List (List Char)) (f : List Char) : List (List Char) :=
  if filterAccepts f then
    match searchGroup f with
    | some u => insertUnique acc u
    | none => acc
  else acc

/-- `extract_unique_usernames_from_files` over the list of top-level
filenames of the semester folder. -/
def extract_unique_usernames_from_files (files : List (List Char)) : List (List Char) :=
  files.foldl extractStep []

/-! ### Spec-side filename shape (for comparison with the extractor)

These definitions follow the specification's words, not the source: a
filename "matching the pattern `<anything>_<identifier>.<extension>`",
where the identifier is a nonempty run over `isIdChar` and the extension a
nonempty word-character run ending the name. -/

/-- Spec reading, one position: `s` is exactly `'_' ++ u ++ '.' ++ ext` with
`u` a nonempty identifier and `ext` a nonempty word run reaching the end. -/
def shapeAtStrict (s u : List Char) : Bool :=
  (!u.isEmpty) && u.all isIdChar && startsWithL ('_' :: (u ++ ['.'])) s &&
    ((!(s.drop (u.length + 2)).isEmpty) && (s.drop (u.length + 2)).all isWordChar)

/-- Spec reading of "filename matches `<anything>_<u>.<ext>`": some split of
the name puts `_u.ext` at the end, with an arbitrary prefix before it. -/
def matchesShapeWith : List Char → List Char → Bool
  | [], _ => false
  | c :: cs, u => shapeAtStrict (c :: cs) u || matchesShapeWith cs u

/-- One position of the newline-adjusted shape: as `shapeAtStrict` but the
extension may carry one final trailing newline (Python's `$`). -/
def shapeAtNL (s u : List Char) : Bool :=
  (!u.isEmpty) && u.all isIdChar && startsWithL ('_' :: (u ++ ['.'])) s &&
    tailOk (s.drop (u.length + 2))

/-- Newline-adjusted shape for the whole name: the prefix before the
matching `_` must be newline-free (Python's `.*`), and the extension may be
followed by one final newline. -/
def matchesShapeNL : List Char → List Char → Bool
  | [], _ => false
  | c :: cs, u => shapeAtNL (c :: cs) u || (c != '\n' && matchesShapeNL cs u)

/-! ### The dispatcher's per-user file selection (line 104)

`re.search(rf"{user_name}.pdf", file)` interpolates the identifier into a
regex: alphanumerics and hyphens are literals, parentheses become groups
(contributing nothing to the matched text; unbalanced ones raise
`re.error`), and the `.` of `".pdf"` matches any non-newline character. -/

inductive Atom where
  | lit (c : Char)
  | anyc
deriving DecidableEq

/-- Compile the interpolated identifier into a list of regex atoms, tracking
parenthesis depth; `none` models `re.error` (characters outside the
extractor's identifier alphabet do not occur and are not modelled). -/
def compileAtoms : List Char → Nat → Option (List Atom)
  | [], 0 => some []
  | [], _ + 1 => none
  | c :: cs, d =>
    if c == '(' then compileAtoms cs (d + 1)
    else if c == ')' then
      match d with
      | 0 => none
      | d' + 1 => compileAtoms cs d'
    else if isIdChar c then (compileAtoms cs d).map (fun as => Atom.lit c :: as)
    else none

def atomMatches (a : Atom) (c : Char) : Bool :=
  match a with
  | Atom.lit l => l == c
  | Atom.anyc => c != '\n'

/-- The atom sequence matches a prefix of `s`. -/
def atomsHere : List Atom → List Char → Bool
  | [], _ => true
  | _ :: _, [] => false
  | a :: as, c :: cs => atomMatches a c && atomsHere as cs

/-- `re.search` of the atom sequence: a match starting anywhere in `s`. -/
def atomsSearch (as : List Atom) : List Char → Bool
  | [] => atomsHere as []
  | c :: cs => atomsHere as (c :: cs) || atomsSearch as cs

/-- The compiled pattern of `rf"{user_name}.pdf"`: the identifier's atoms
followed by any-character, `p`, `d`, `f`. -/
def dispatcherPattern (u : List Char) : Option (List Atom) :=
  (compileAtoms u 0).map (fun as => as ++ [Atom.anyc, Atom.lit 'p', Atom.lit 'd', Atom.lit 'f'])

/-- Whether the dispatcher's comprehension selects filename `f` for
identifier `u`; `none` models the `re.error` raised while compiling. -/
def selectsFile (u f : List Char) : Option Bool :=
  (dispatcherPattern u).map (fun as => atomsSearch as f)

/-! ### Folder resolution (`CanvasInteraction.get_or_create_folder`, lines 56-97)

The platform folder store is modelled as an explicit state: a list of
folders (id, parent id — `none` meaning the user's root — and name) plus a
fresh-id counter.  Listing children filters the store; creating appends a
folder with the fresh id.  `canvas.get_folder(folder_id)` in the
early-return branch and `canvas.get_user(user_id)` are oracles
(`none` / `false` model the call raising, which the source catches and
converts to a `None` return). -/

structure Folder where
  id : Int
  parentId : Option Int
  name : List Char
deriving DecidableEq

structure FolderStore where
  folders : List Folder
  nextId : Int
deriving DecidableEq

structure FolderEnv where
  getFolderObj : Int → Option Folder
  userExists : Option Int → Bool

def childrenOf (s : FolderStore) (p : Option Int) : List Folder :=
  s.folders.filter (fun f => f.parentId == p)

/-- One segment of the walk: find a child of the current context with the
segment's name, creating it when absent. -/
def walkStep (s : FolderStore) (cur : Option Int) (nm : List Char) : Int × FolderStore :=
  match (childrenOf s cur).find? (fun f => f.name == nm) with
  | some f => (f.id, s)
  | none => (s.nextId, ⟨s.folders ++ [⟨s.nextId, cur, nm⟩], s.nextId + 1⟩)

/-- The `for folder_name in folders` loop (lines 71-90), returning the final
`current_folder_id` (`none` only for an empty segment list, mirroring the
initial `current_folder_id = None`). -/
def walkPath : FolderStore → Option Int → List (List Char) → Option Int × FolderStore
  | s, cur, [] => (cur, s)
  | s, cur, nm :: rest =>
    let p := walkStep s cur nm
    walkPath p.2 (some p.1) rest

/-- A value returned by `get_or_create_folder`: the early branch returns a
Folder *object*, the walk returns a numeric folder id. -/
inductive FolderRes where
  | obj (f : Folder)
  | fid (i : Int)
deriving DecidableEq

/-- The no-folder-id path: `canvas.get_user` (raising → caught → `None`),
then the walk. -/
def folderWalkBranch (env : FolderEnv) (s : FolderStore) (user_id : Option Int)
    (path : List (List Char)) : Option FolderRes × FolderStore :=
  if env.userExists user_id then
    let p := walkPath s none path
    (p.1.map FolderRes.fid, p.2)
  else (none, s)

/-- `get_or_create_folder(user_id, folder_path, folder_id=None)`.  The
`folder_path` is the already-split list of `/`-separated segments.  Python's
`if folder_id:` is truthy only for a supplied *nonzero* id; in that case the
source returns `self.canvas.get_folder(folder_id)` — the folder object —
or `None` when that retrieval raises. -/
def get_or_create_folder (env : FolderEnv) (s : FolderStore) (user_id : Option Int)
    (folder_path : List (List Char)) (folder_id : Option Int) : Option FolderRes × FolderStore :=
  match folder_id with
  | some i =>
    if i = 0 then folderWalkBranch env s user_id folder_path
    else ((env.getFolderObj i).map FolderRes.obj, s)
  | none => folderWalkBranch env s user_id folder_path

/-! ### Two-phase upload (`CanvasInteraction.upload_file`, lines 100-149) -/

inductive NetCall where
  | phase1
  | phase2
deriving DecidableEq

/-- External outcomes of one `upload_file` call: local file existence, the
ticket request (its status, whether the POST raises, whether the JSON body
carries `upload_url`/`upload_params`), and the binary transfer. -/
structure UploadEnv where
  fileExists : Bool
  p1raises : Bool
  p1status : Int
  ticketOk : Bool
  p2raises : Bool
  p2status : Int
deriving DecidableEq

/-- `upload_file`, returning the status code (or `none` for a missing file,
a raised transport error, or a malformed ticket body) together with the
network calls attempted. -/
def upload_file (env : UploadEnv) : Option Int × List NetCall :=
  if !env.fileExists then (none, [])
  else if env.p1raises then (none, [NetCall.phase1])
  else if ¬(200 ≤ env.p1status ∧ env.p1status < 300) then (some env.p1status, [NetCall.phase1])
  else if !env.ticketOk then (none, [NetCall.phase1])
  else if env.p2raises then (none, [NetCall.phase1, NetCall.phase2])
  else (some env.p2status, [NetCall.phase1, NetCall.phase2])

/-! ### Quota check (`QuotaManager.get_remaining_space`, lines 163-182) -/

/-- A quota-endpoint response: status code and the two JSON fields the
source reads (`none` models a missing key, whose `KeyError` the source
catches). -/
structure QuotaResp where
  status : Int
  quota : Option Int
  quota_used : Option Int
deriving DecidableEq

/-- `get_remaining_space`: on a 2xx response with both fields present,
`quota/1MB - quota_used/1MB`; otherwise `None`. -/
def get_remaining_space (r : QuotaResp) : Option ℚ :=
  if 200 ≤ r.status ∧ r.status < 300 then
    match r.quota, r.quota_used with
    | some q, some u => some ((q : ℚ) / (1024 * 1024) - (u : ℚ) / (1024 * 1024))
    | some _, none => none
    | none, _ => none
  else none

/-! ### Upload dispatcher (`upload_user_files_to_canvas_based_on_quota`, lines 84-140)

Local file state: the staging directory's filenames and the quarantined
files of the exceeded-storage area, as `(user_name, filename)` pairs (the
destination `<EXCEEDED_STORAGE_DIR_PATH>/file_storage_exceeded_<user_name>/<filename>`).
Every observable interaction is also recorded in a trace.  The collaborating
calls (`get_user_id`, `get_or_create_folder`, `upload_file`,
`get_remaining_space`) are oracles; `quota_raises` models the quota query
itself raising (e.g. a `requests` transport error, uncaught inside
`get_remaining_space`), which the dispatcher's inner `except` catches.
`Except` carries the aborted state when a statement raises out of the
per-user loop into the outermost handler (line 139). -/

structure FS where
  staging : List (List Char)
  exceeded : List (List Char × List Char)
deriving DecidableEq

inductive DEvent where
  | lookupUser (uname : List Char)
  | resolveFolder (uid : Option Int)
  | uploadCall (fid : Int) (file : List Char)
  | quotaQuery (uid : Option Int)
  | quotaWarn (fired : Bool)
  | movedFile (uname file : List Char)
deriving DecidableEq

structure DState where
  fs : FS
  trace : List DEvent
deriving DecidableEq

structure DEnv where
  get_user_id : List Char → Option Int
  resolve_folder : Option Int → Option Int
  upload_status : Int → List Char → Option Int
  quota_raises : Option Int → Bool
  quota_val : Option Int → Option ℚ

/-- `shutil.move` of a staged file into the per-recipient exceeded-storage
subdirectory. -/
def quarantine (fs : FS) (uname file : List Char) : FS :=
  ⟨fs.staging.erase file, fs.exceeded ++ [(uname, file)]⟩

/-- Lines 107-137, one file: attempt the upload; on a numeric status the
code checks `200 <= response_code < 300`, but on a `None` result that very
comparison raises `TypeError` (`Except.error`), escaping to the outer
handler.  On a numeric failure, the inner `try` queries the quota (a raising
query is caught and `continue`s, skipping the move) and otherwise logs the
diagnostic warning and relocates the file. -/
def processFile1 (env : DEnv) (uname : List Char) (uid : Option Int) (fid : Int)
    (st : DState) (file : List Char) : Except DState DState :=
  let st1 : DState := ⟨st.fs, st.trace ++ [DEvent.uploadCall fid file]⟩
  match env.upload_status fid file with
  | none => Except.error st1
  | some code =>
    if 200 ≤ code ∧ code < 300 then Except.ok st1
    else
      let st2 : DState := ⟨st1.fs, st1.trace ++ [DEvent.quotaQuery uid]⟩
      if env.quota_raises uid then Except.ok st2
      else
        let v := env.quota_val uid
        let warn : Bool :=
          match v with
          | none => true
          | some q => decide (q < 0)
        let st3 : DState := ⟨st2.fs, st2.trace ++ [DEvent.quotaWarn warn]⟩
        Except.ok ⟨quarantine st3.fs uname file, st3.trace ++ [DEvent.movedFile uname file]⟩

/-- The comprehension of lines 101-105: `re.search` is evaluated once per
listed file, so an invalid interpolated pattern raises only when the staging
directory is nonempty. -/
def selectedFiles (uname : List Char) (staging : List (List Char)) :
    Option (List (List Char)) :=
  match staging with
  | [] => some []
  | _ :: _ => (dispatcherPattern uname).map (fun as => staging.filter (fun f => atomsSearch as f))

/-- Fold a fallible step over a list, stopping at the first raised state. -/
def foldE {α : Type} (f : DState → α → Except DState DState) :
    DState → List α → Except DState DState
  | s, [] => Except.ok s
  | s, a :: as =>
    match f s a with
    | Except.ok s' => foldE f s' as
    | Except.error s' => Except.error s'

/-- Lines 88-137, one recipient: look the user up, then — with no check of
the lookup's result — resolve the target folder passing whatever the lookup
returned; a falsy folder id (absent, or `0`) logs and skips the recipient;
otherwise enumerate and process the matching staged files. -/
def processUser (env : DEnv) (st : DState) (uname : List Char) : Except DState DState :=
  let uid := env.get_user_id uname
  let st1 : DState := ⟨st.fs, st.trace ++ [DEvent.lookupUser uname, DEvent.resolveFolder uid]⟩
  match env.resolve_folder uid with
  | none => Except.ok st1
  | some fid =>
    if fid = 0 then Except.ok st1
    else
      match selectedFiles uname st1.fs.staging with
      | none => Except.error st1
      | some files => foldE (processFile1 env uname uid fid) st1 files

/-- Run the per-recipient loop from a state; the outermost handler (line
139) swallows any escaped exception, so the function always returns the
state reached. -/
def runFrom (env : DEnv) (st : DState) (usernames : List (List Char)) : DState :=
  match foldE (processUser env) st usernames with
  | Except.ok s => s
  | Except.error s => s

/-- `upload_user_files_to_canvas_based_on_quota`. -/
def upload_user_files_to_canvas_based_on_quota (env : DEnv) (fs0 : FS)
    (usernames : List (List Char)) : DState :=
  runFrom env ⟨fs0, []⟩ usernames

/-- Forget a step result's trace, keeping the file state and whether the
step completed normally. -/
def exceptFS (e : Except DState DState) : FS × Bool :=
  match e with
  | Except.ok s => (s.fs, true)
  | Except.error s => (s.fs, false)

/-! ### Concrete inputs for the end-to-end evaluations -/

def aliceName : List Char := "alice".toList

def aliceFile : List Char := "report_alice.pdf".toList

def fsAlice : FS := ⟨[aliceFile], []⟩

/-- Oracles for a run where `alice` resolves, the folder resolves to id 7,
and the upload attempt yields no status code at all (transport failure). -/
def envAbsentUpload : DEnv :=
  ⟨fun _ => some 1,
   fun uid => match uid with | some _ => some 7 | none => none,
   fun _ _ => none,
   fun _ => false,
   fun _ => some 12⟩

/-- As `envAbsentUpload`, but the upload ticket phase answers 507. -/
def env507Upload : DEnv :=
  ⟨fun _ => some 1,
   fun uid => match uid with | some _ => some 7 | none => none,
   fun _ _ => some 507,
   fun _ => false,
   fun _ => some 12⟩

/-- As `env507Upload`, but the diagnostic quota query itself raises. -/
def env507QuotaRaise : DEnv :=
  ⟨fun _ => some 1,
   fun uid => match uid with | some _ => some 7 | none => none,
   fun _ _ => some 507,
   fun _ => true,
   fun _ => some 12⟩

/-- Oracles for a recipient whose user lookup finds nobody. -/
def envNoUser : DEnv :=
  ⟨fun _ => none, fun _ => none, fun _ _ => none, fun _ => false, fun _ => none⟩

/-- Folder oracle owning folder 42; every user is valid. -/
def fenvHasFolder : FolderEnv :=
  ⟨fun i => if i == 42 then some ⟨42, none, "x".toList⟩ else none, fun _ => true⟩

/-- Folder oracle for which every folder retrieval raises. -/
def fenvNoFolder : FolderEnv :=
  ⟨fun _ => none, fun _ => true⟩

def emptyStore : FolderStore := ⟨[], 0⟩

/-! ## Theorems -/

/-! ### C8: quota formula and absence conditions -/

/-- C8: `get_remaining_space` returns `none` exactly when the response is
non-2xx or one of the `quota` / `quota_used` fields is missing; on a 2xx
response with both fields it returns `(quota - quota_used) / 1MB`, which is
negative (without raising) whenever `quota_used > quota`. -/
theorem get_remaining_space_formula_and_absence (r : QuotaResp) :
    (get_remaining_space r = none ↔
      ¬(200 ≤ r.status ∧ r.status < 300) ∨ r.quota = none ∨ r.quota_used = none)
    ∧ (∀ q u : ℤ, r.quota = some q → r.quota_used = some u →
        200 ≤ r.status → r.status < 300 →
        get_remaining_space r = some (((q : ℚ) - u) / 1048576)
        ∧ (q < u → ((q : ℚ) - u) / 1048576 < 0)) := by
  constructor
  · rw [get_remaining_space]
    split_ifs with h
    · rcases hq : r.quota with _ | q
      · simp [hq]
      · rcases hu : r.quota_used with _ | u
        · simp [hq, hu, h]
        · simp [hq, hu, h]
    · simp [h]
  · intro q u hq hu h1 h2
    constructor
    · rw [get_remaining_space, if_pos ⟨h1, h2⟩, hq, hu]
      norm_num [div_sub_div_same]
    · intro hlt
      apply div_neg_of_neg_of_pos
      · rw [sub_neg]
        exact_mod_cast hlt
      · norm_num

/-- C8 witness: a user with 100 quota bytes and 200 used bytes gets the
negative remaining space `-100/1MB`. -/
theorem get_remaining_space_formula_witness :
    get_remaining_space ⟨200, some 100, some 200⟩ = some (((100 : ℚ) - 200) / 1048576)
    ∧ ((100 : ℚ) - 200) / 1048576 < 0 := by
  have h := (get_remaining_space_formula_and_absence ⟨200, some 100, some 200⟩).2 100 200
    rfl rfl (by decide) (by decide)
  exact ⟨h.1, h.2 (by decide)⟩

/-! ### C6: phase-1 failure short-circuits phase 2 -/

/-- C6: when the upload-ticket request answers with a non-2xx status, the
binary transfer is never attempted and exactly that status is returned. -/
theorem phase1_non2xx_short_circuits_phase2 (env : UploadEnv)
    (hex : env.fileExists = true) (hr : env.p1raises = false)
    (hs : ¬(200 ≤ env.p1status ∧ env.p1status < 300)) :
    upload_file env = (some env.p1status, [NetCall.phase1]) := by
  simp [upload_file, hex, hr, hs]

/-- C6 witness: a 507 ticket response is returned as-is with only the
phase-1 call on the wire. -/
theorem phase1_non2xx_short_circuits_phase2_witness :
    upload_file ⟨true, false, 507, true, false, 201⟩ = (some 507, [NetCall.phase1]) :=
  phase1_non2xx_short_circuits_phase2 ⟨true, false, 507, true, false, 201⟩ rfl rfl (by decide)

/-! ### C4: the supplied-folder-id branch -/

/-- C4 counterexample: with a supplied folder id 42, `get_or_create_folder`
returns the platform's folder *object* (obtained by a retrieval call), not
the id that was passed in, and when that retrieval raises it returns absent
— refuting "returns the supplied id directly, without validating it, and
the returned value equals the id that was passed in". -/
theorem supplied_folder_id_returns_object_not_id :
    get_or_create_folder fenvHasFolder emptyStore (some 1) ["a".toList] (some 42)
      = (some (FolderRes.obj ⟨42, none, "x".toList⟩), emptyStore)
    ∧ (some (FolderRes.obj ⟨42, none, "x".toList⟩) ≠ some (FolderRes.fid 42))
    ∧ get_or_create_folder fenvNoFolder emptyStore (some 1) ["a".toList] (some 42)
      = (none, emptyStore) := by
  exact ⟨by decide, by decide, by decide⟩

/-- C4 amended: for every supplied *nonzero* folder id, `get_or_create_folder`
performs no path walk (the folder store is untouched) and returns the result
of fetching that folder's object from the platform, absent when the fetch
raises. -/
theorem supplied_folder_id_fetches_object_without_walk (env : FolderEnv) (s : FolderStore)
    (uid : Option Int) (path : List (List Char)) (i : Int) (h : i ≠ 0) :
    get_or_create_folder env s uid path (some i)
      = ((env.getFolderObj i).map FolderRes.obj, s) := by
  simp [get_or_create_folder, h]

/-- C4 amended witness. -/
theorem supplied_folder_id_fetches_object_without_walk_witness :
    get_or_create_folder fenvHasFolder emptyStore (some 1) [] (some 5)
      = ((fenvHasFolder.getFolderObj 5).map FolderRes.obj, emptyStore) :=
  supplied_folder_id_fetches_object_without_walk fenvHasFolder emptyStore (some 1) [] 5
    (by decide)

/-! ### C2: recipients whose user lookup is absent -/

/-- C2 counterexample: for a recipient whose lookup returns absent, the
dispatcher *does* perform a folder-resolution call (passing the absent id),
refuting "it performs no folder resolution for that recipient". -/
theorem folder_resolution_attempted_for_unresolved_user :
    DEvent.resolveFolder none
      ∈ (upload_user_files_to_canvas_based_on_quota envNoUser ⟨[], []⟩ [['b','o','b']]).trace := by
  decide

/-- C2 amended: when a recipient's user lookup is absent, the dispatcher
still invokes folder resolution with the absent id; given that call returns
absent (as it does on the platform for a nonexistent user), the recipient is
skipped after a logged error — no upload call, no file-state change — and
the run continues over the remaining recipients. -/
theorem unresolved_user_skipped_after_failed_resolution (env : DEnv) (st : DState)
    (uname : List Char) (rest : List (List Char))
    (h1 : env.get_user_id uname = none) (h2 : env.resolve_folder none = none) :
    runFrom env st (uname :: rest)
      = runFrom env ⟨st.fs, st.trace ++ [DEvent.lookupUser uname, DEvent.resolveFolder none]⟩
          rest := by
  simp [runFrom, foldE, processUser, h1, h2]

/-- C2 amended witness. -/
theorem unresolved_user_skipped_after_failed_resolution_witness :
    runFrom envNoUser ⟨⟨[], []⟩, []⟩ [['b', 'o', 'b']]
      = runFrom envNoUser
          ⟨⟨[], []⟩, [DEvent.lookupUser ['b', 'o', 'b'], DEvent.resolveFolder none]⟩ [] :=
  unresolved_user_skipped_after_failed_resolution envNoUser ⟨⟨[], []⟩, []⟩ ['b', 'o', 'b'] []
    rfl rfl

/-! ### C1: behaviour on failed uploads, numeric and absent -/

/-- C1: evaluating the dispatcher at the failing input.  When the upload
attempt yields *no* status code (`upload_file` returns `None`), the
comparison `200 <= response_code < 300` raises `TypeError`; the outermost
handler swallows it, the run ends, and the file is *not* quarantined — it is
still in the staging directory and the exceeded area is empty, although the
upload call was made.  With a numeric 507 instead, the file is moved as the
claim describes. -/
theorem absent_upload_result_aborts_run_without_quarantine :
    ((upload_user_files_to_canvas_based_on_quota envAbsentUpload fsAlice [aliceName]).fs.staging
        = [aliceFile]
      ∧ (upload_user_files_to_canvas_based_on_quota envAbsentUpload fsAlice [aliceName]).fs.exceeded
        = []
      ∧ DEvent.uploadCall 7 aliceFile
          ∈ (upload_user_files_to_canvas_based_on_quota envAbsentUpload fsAlice [aliceName]).trace)
    ∧ ((upload_user_files_to_canvas_based_on_quota env507Upload fsAlice [aliceName]).fs.staging
        = []
      ∧ (upload_user_files_to_canvas_based_on_quota env507Upload fsAlice [aliceName]).fs.exceeded
        = [(aliceName, aliceFile)]) := by
  decide

/-! ### C7 counterexample: a raising quota query changes the file action -/

/-- C7 counterexample: two runs identical except for the outcome of the
diagnostic quota query — in one it returns a value, in the other the query
raises.  The resulting local file states differ: with a value the file is
quarantined, with a raising query the relocation is skipped and the file
stays in staging.  This refutes "for any two outcomes of the quota query
(any numeric value, absent, or a query failure) the resulting local file
state is identical". -/
theorem raising_quota_query_changes_file_state :
    (upload_user_files_to_canvas_based_on_quota env507Upload fsAlice [aliceName]).fs
      = ⟨[], [(aliceName, aliceFile)]⟩
    ∧ (upload_user_files_to_canvas_based_on_quota env507QuotaRaise fsAlice [aliceName]).fs
      = ⟨[aliceFile], []⟩ := by
  decide

/-! ### C9: idempotence of folder resolution

Helper lemmas: the walk only appends folders to the store, and a found or
created folder keeps being the first name-match after any such appends. -/

theorem find?_append_of_some {α : Type} (p : α → Bool) (l₁ l₂ : List α) (x : α)
    (h : l₁.find? p = some x) : (l₁ ++ l₂).find? p = some x := by
  induction l₁ with
  | nil => simp [List.find?] at h
  | cons a as ih =>
    rw [List.cons_append]
    by_cases hpa : p a = true
    · rw [List.find?_cons_of_pos _ hpa] at h ⊢
      exact h
    · rw [List.find?_cons_of_neg _ hpa] at h ⊢
      exact ih h

theorem find?_append_of_none {α : Type} (p : α → Bool) (l₁ l₂ : List α)
    (h : l₁.find? p = none) : (l₁ ++ l₂).find? p = l₂.find? p := by
  induction l₁ with
  | nil => simp
  | cons a as ih =>
    rw [List.cons_append]
    by_cases hpa : p a = true
    · rw [List.find?_cons_of_pos _ hpa] at h
      simp at h
    · rw [List.find?_cons_of_neg _ hpa] at h ⊢
      exact ih h

/-- A store extending the result of a `walkStep` resolves the same segment
to the same folder id without any state change. -/
theorem walkStep_extends (s t : FolderStore) (cur : Option Int) (nm : List Char)
    (tl : List Folder) (ht : t.folders = (walkStep s cur nm).2.folders ++ tl) :
    walkStep t cur nm = ((walkStep s cur nm).1, t) := by
  rcases hf : (childrenOf s cur).find? (fun f => f.name == nm) with _ | f
  · simp only [walkStep, hf] at ht ⊢
    have hch : childrenOf t cur
        = childrenOf s cur ++ (⟨s.nextId, cur, nm⟩ : Folder) :: tl.filter (fun f => f.parentId == cur) := by
      rw [childrenOf, ht, List.append_assoc, List.filter_append, List.filter_append]
      rw [childrenOf]
      simp
    rw [hch, find?_append_of_none _ _ _ (by rw [childrenOf] at hf; exact hf)]
    simp [List.find?]
  · simp only [walkStep, hf] at ht ⊢
    have hch : childrenOf t cur
        = childrenOf s cur ++ tl.filter (fun f => f.parentId == cur) := by
      rw [childrenOf, ht, List.filter_append, childrenOf]
    rw [hch, find?_append_of_some _ _ _ _ (by rw [childrenOf] at hf; exact hf)]

/-- The walk only appends to the folder store. -/
theorem walkPath_folders_extend (p : List (List Char)) :
    ∀ s cur, ∃ tl, (walkPath s cur p).2.folders = s.folders ++ tl := by
  induction p with
  | nil => intro s cur; exact ⟨[], by simp [walkPath]⟩
  | cons nm rest ih =>
    intro s cur
    simp only [walkPath]
    obtain ⟨tl, htl⟩ := ih (walkStep s cur nm).2 (some (walkStep s cur nm).1)
    rcases hf : (childrenOf s cur).find? (fun f => f.name == nm) with _ | f
    · refine ⟨(⟨s.nextId, cur, nm⟩ : Folder) :: tl, ?_⟩
      rw [htl]
      simp [walkStep, hf]
    · refine ⟨tl, ?_⟩
      rw [htl]
      simp [walkStep, hf]

/-- Main induction: any store extending a finished walk re-walks the same
path to the same terminal id and is left unchanged. -/
theorem walkPath_idem_aux (p : List (List Char)) :
    ∀ s cur t tl, t.folders = (walkPath s cur p).2.folders ++ tl →
      walkPath t cur p = ((walkPath s cur p).1, t) := by
  induction p with
  | nil =>
    intro s cur t tl ht
    simp [walkPath]
  | cons nm rest ih =>
    intro s cur t tl ht
    simp only [walkPath] at ht ⊢
    obtain ⟨tl₁, h1⟩ := walkPath_folders_extend rest (walkStep s cur nm).2
      (some (walkStep s cur nm).1)
    have ht' : t.folders = (walkStep s cur nm).2.folders ++ (tl₁ ++ tl) := by
      rw [ht, h1, List.append_assoc]
    have hstep := walkStep_extends s t cur nm (tl₁ ++ tl) ht'
    rw [hstep]
    exact ih (walkStep s cur nm).2 (some (walkStep s cur nm).1) t tl ht

/-- Re-walking a just-walked path returns the same terminal id and leaves
the store untouched. -/
theorem walkPath_idem (s : FolderStore) (cur : Option Int) (p : List (List Char)) :
    walkPath (walkPath s cur p).2 cur p = ((walkPath s cur p).1, (walkPath s cur p).2) :=
  walkPath_idem_aux p s cur (walkPath s cur p).2 [] (by simp)

/-- C9: `get_or_create_folder` without a supplied folder id is idempotent —
the second of two successive calls for the same user and path returns the
same terminal folder id and creates no folder (the store is unchanged). -/
theorem get_or_create_folder_idempotent (env : FolderEnv) (s : FolderStore)
    (uid : Option Int) (path : List (List Char)) (h : env.userExists uid = true) :
    get_or_create_folder env (get_or_create_folder env s uid path none).2 uid path none
      = get_or_create_folder env s uid path none := by
  simp only [get_or_create_folder, folderWalkBranch, h, if_true]
  rw [walkPath_idem]

/-- C9 witness: walking `a/b` twice from an empty store. -/
theorem get_or_create_folder_idempotent_witness :
    get_or_create_folder fenvNoFolder
        (get_or_create_folder fenvNoFolder emptyStore (some 1) ["a".toList, "b".toList] none).2
        (some 1) ["a".toList, "b".toList] none
      = get_or_create_folder fenvNoFolder emptyStore (some 1) ["a".toList, "b".toList] none :=
  get_or_create_folder_idempotent fenvNoFolder emptyStore (some 1) ["a".toList, "b".toList] rfl

/-! ### C7: the quota query's returned value cannot influence the file state

A simulation over the dispatcher: two runs whose oracles differ only in the
value returned by the (non-raising) quota query make identical file-state
transitions; only the logged diagnostic in the trace can differ. -/

theorem processFile1_fs_congr (gu : List Char → Option Int) (rf : Option Int → Option Int)
    (up : Int → List Char → Option Int) (qr : Option Int → Bool)
    (qv qv' : Option Int → Option ℚ) (uname : List Char) (uid : Option Int) (fid : Int)
    (file : List Char) (fs : FS) (t t' : List DEvent) :
    exceptFS (processFile1 ⟨gu, rf, up, qr, qv⟩ uname uid fid ⟨fs, t⟩ file)
      = exceptFS (processFile1 ⟨gu, rf, up, qr, qv'⟩ uname uid fid ⟨fs, t'⟩ file) := by
  rcases h : up fid file with _ | code
  · simp [processFile1, h, exceptFS]
  · by_cases hc : 200 ≤ code ∧ code < 300
    · simp [processFile1, h, hc, exceptFS]
    · by_cases hq : qr uid
      · simp [processFile1, h, hc, hq, exceptFS]
      · simp [processFile1, h, hc, hq, exceptFS]

theorem foldE_fs_congr {α : Type} (f₁ f₂ : DState → α → Except DState DState)
    (h : ∀ fs t t' a, exceptFS (f₁ ⟨fs, t⟩ a) = exceptFS (f₂ ⟨fs, t'⟩ a)) :
    ∀ (l : List α) (fs : FS) (t t' : List DEvent),
      exceptFS (foldE f₁ ⟨fs, t⟩ l) = exceptFS (foldE f₂ ⟨fs, t'⟩ l) := by
  intro l
  induction l with
  | nil => intro fs t t'; simp [foldE, exceptFS]
  | cons a as ih =>
    intro fs t t'
    have ha := h fs t t' a
    rcases h1 : f₁ ⟨fs, t⟩ a with s1 | s1 <;> rcases h2 : f₂ ⟨fs, t'⟩ a with s2 | s2 <;>
      rw [h1, h2] at ha <;> simp only [exceptFS] at ha
    · simp only [foldE, h1, h2, exceptFS]
      simp only [Prod.mk.injEq] at ha
      exact Prod.ext ha.1 rfl
    · simp at ha
    · simp at ha
    · simp only [foldE, h1, h2]
      have h3 : (⟨s1.fs, s2.trace⟩ : DState) = s2 := by
        rw [Prod.mk.injEq] at ha
        rw [ha.1]
      calc exceptFS (foldE f₁ s1 as)
          = exceptFS (foldE f₂ ⟨s1.fs, s2.trace⟩ as) := ih s1.fs s1.trace s2.trace
        _ = exceptFS (foldE f₂ s2 as) := by rw [h3]

theorem processUser_fs_congr (gu : List Char → Option Int) (rf : Option Int → Option Int)
    (up : Int → List Char → Option Int) (qr : Option Int → Bool)
    (qv qv' : Option Int → Option ℚ) (uname : List Char) (fs : FS) (t t' : List DEvent) :
    exceptFS (processUser ⟨gu, rf, up, qr, qv⟩ ⟨fs, t⟩ uname)
      = exceptFS (processUser ⟨gu, rf, up, qr, qv'⟩ ⟨fs, t'⟩ uname) := by
  rcases hr : rf (gu uname) with _ | fid
  · simp [processUser, hr, exceptFS]
  · by_cases hf : fid = 0
    · simp [processUser, hr, hf, exceptFS]
    · rcases hs : selectedFiles uname fs.staging with _ | files
      · simp [processUser, hr, hf, hs, exceptFS]
      · simp only [processUser, hr, hf, hs, if_false]
        exact foldE_fs_congr _ _
          (fun fs2 t2 t2' file => processFile1_fs_congr gu rf up qr qv qv' uname (gu uname)
            fid file fs2 t2 t2')
          files fs (t ++ [DEvent.lookupUser uname, DEvent.resolveFolder (gu uname)])
          (t' ++ [DEvent.lookupUser uname, DEvent.resolveFolder (gu uname)])

theorem runFrom_fs_eq (env : DEnv) (st : DState) (us : List (List Char)) :
    (runFrom env st us).fs = (exceptFS (foldE (processUser env) st us)).1 := by
  rw [runFrom]
  rcases h : foldE (processUser env) st us with s | s <;> simp [exceptFS]

/-- C7 (amended): noninterference of the quota query's *returned value* —
for any two value oracles (arbitrary numeric results or absent, per user),
runs that agree on everything else produce identical local file states. -/
theorem quota_value_noninterference_on_files (gu : List Char → Option Int)
    (rf : Option Int → Option Int) (up : Int → List Char → Option Int)
    (qr : Option Int → Bool) (qv qv' : Option Int → Option ℚ)
    (fs0 : FS) (us : List (List Char)) :
    (upload_user_files_to_canvas_based_on_quota ⟨gu, rf, up, qr, qv⟩ fs0 us).fs
      = (upload_user_files_to_canvas_based_on_quota ⟨gu, rf, up, qr, qv'⟩ fs0 us).fs := by
  rw [upload_user_files_to_canvas_based_on_quota, upload_user_files_to_canvas_based_on_quota,
    runFrom_fs_eq, runFrom_fs_eq]
  rw [foldE_fs_congr (processUser ⟨gu, rf, up, qr, qv⟩) (processUser ⟨gu, rf, up, qr, qv'⟩)
    (fun fs2 t2 t2' uname => processUser_fs_congr gu rf up qr qv qv' uname fs2 t2 t2')
    us fs0 [] []]

/-! ### Extractor: basic list lemmas -/

theorem startsWithL_iff (p : List Char) :
    ∀ s, startsWithL p s = true ↔ ∃ t, s = p ++ t := by
  induction p with
  | nil => intro s; simp [startsWithL]
  | cons a as ih =>
    intro s
    cases s with
    | nil => simp [startsWithL]
    | cons b bs =>
      rw [startsWithL]
      simp only [Bool.and_eq_true, beq_iff_eq]
      constructor
      · rintro ⟨rfl, h⟩
        obtain ⟨t, rfl⟩ := (ih bs).mp h
        exact ⟨t, rfl⟩
      · rintro ⟨t, ht⟩
        simp only [List.cons_append, List.cons.injEq] at ht
        obtain ⟨h1, h2⟩ := ht
        exact ⟨h1.symm, (ih bs).mpr ⟨t, h2⟩⟩

theorem takeWhile_append_run (q : Char → Bool) (r : List Char) (c : Char) (t : List Char)
    (hr : r.all q = true) (hc : q c = false) : (r ++ c :: t).takeWhile q = r := by
  induction r with
  | nil => simp [List.takeWhile, hc]
  | cons a as ih =>
    simp at hr
    simp [List.takeWhile, hr.1, ih (List.all_eq_true.mpr (fun x hx => hr.2 x hx))]

theorem dropWhile_append_run (q : Char → Bool) (r : List Char) (c : Char) (t : List Char)
    (hr : r.all q = true) (hc : q c = false) : (r ++ c :: t).dropWhile q = c :: t := by
  induction r with
  | nil => simp [List.dropWhile, hc]
  | cons a as ih =>
    simp at hr
    simp [List.dropWhile, hr.1, ih (List.all_eq_true.mpr (fun x hx => hr.2 x hx))]

theorem all_takeWhile_run (q : Char → Bool) (l : List Char) :
    (l.takeWhile q).all q = true :=
  List.all_eq_true.mpr (fun a ha => List.mem_takeWhile_imp ha)

/-! ### Extractor: characterising `tailOk` and `matchAt` -/

/-- `tailOk` holds exactly for a nonempty word run, optionally followed by a
single final newline. -/
theorem tailOk_iff (t : List Char) :
    tailOk t = true ↔
      ∃ w, w ≠ [] ∧ w.all isWordChar = true ∧ (t = w ∨ t = w ++ ['\n']) := by
  induction t with
  | nil =>
    constructor
    · intro h; simp [tailOk] at h
    · rintro ⟨w, hw, _, h | h⟩
      · exact absurd h.symm hw
      · exact absurd h.symm (by simp)
  | cons c t ih =>
    cases t with
    | nil =>
      simp only [tailOk]
      constructor
      · intro hc
        exact ⟨[c], by simp, by simp [hc], Or.inl rfl⟩
      · rintro ⟨w, hw, hall, h | h⟩
        · rw [← h] at hall
          simpa using hall
        · rcases w with _ | ⟨_a, as⟩
          · exact absurd rfl hw
          · simp only [List.cons_append, List.cons.injEq] at h
            exact absurd h.2 (by simp)
    | cons c2 rest =>
      rw [tailOk]
      simp only [Bool.and_eq_true, Bool.or_eq_true, beq_iff_eq, List.isEmpty_iff]
      constructor
      · rintro ⟨hc, h | ⟨h2, hrest⟩⟩
        · obtain ⟨w', hw', hall', h' | h'⟩ := ih.mp h
          · exact ⟨c :: w', by simp, by simp [hc, hall'], Or.inl (by rw [h'])⟩
          · exact ⟨c :: w', by simp, by simp [hc, hall'], Or.inr (by rw [h']; rfl)⟩
        · subst h2; subst hrest
          exact ⟨[c], by simp, by simp [hc], Or.inr rfl⟩
      · rintro ⟨w, hw, hall, h | h⟩
        · rw [← h, List.all_cons, Bool.and_eq_true] at hall
          exact ⟨hall.1, Or.inl (ih.mpr ⟨c2 :: rest, by simp, hall.2, Or.inl rfl⟩)⟩
        · rcases w with _ | ⟨a, as⟩
          · exact absurd rfl hw
          · simp only [List.cons_append, List.cons.injEq] at h
            obtain ⟨rfl, h2⟩ := h
            rw [List.all_cons, Bool.and_eq_true] at hall
            rcases as with _ | ⟨a2, as2⟩
            · simp only [List.nil_append, List.cons.injEq] at h2
              exact ⟨hall.1, Or.inr ⟨h2.1, h2.2⟩⟩
            · simp only [List.cons_append, List.cons.injEq] at h2
              obtain ⟨rfl, h3⟩ := h2
              refine ⟨hall.1, Or.inl (ih.mpr ⟨c2 :: as2, by simp, hall.2, Or.inr ?_⟩)⟩
              rw [h3]
              rfl

/-- `matchAt` succeeds exactly on an underscore, a nonempty identifier run,
a literal dot and a `\w+$` tail — and the captured group is that run. -/
theorem matchAt_eq_some_iff (s u : List Char) :
    matchAt s = some u ↔
      ∃ t, s = '_' :: (u ++ '.' :: t) ∧ u ≠ [] ∧ u.all isIdChar = true ∧ tailOk t = true := by
  constructor
  · intro h
    rcases s with _ | ⟨c, rest⟩
    · simp [matchAt] at h
    · simp only [matchAt] at h
      split at h
      · rename_i hc
        split at h
        · exact absurd h (by simp)
        · rename_i hr
          split at h
          · exact absurd h (by simp)
          · rename_i d t2 hd
            split at h
            · rename_i hdot
              split at h
              · rename_i ht
                have hu : rest.takeWhile isIdChar = u := Option.some.inj h
                refine ⟨t2, ?_, ?_, ?_, ht⟩
                · rw [hc]
                  have hsplit : rest = rest.takeWhile isIdChar ++ rest.dropWhile isIdChar :=
                    (List.takeWhile_append_dropWhile isIdChar rest).symm
                  rw [hu, hd, hdot] at hsplit
                  rw [hsplit]
                · rw [← hu]; exact hr
                · rw [← hu]; exact all_takeWhile_run isIdChar rest
              · exact absurd h (by simp)
            · exact absurd h (by simp)
      · exact absurd h (by simp)
  · rintro ⟨t, rfl, hu, hall, ht⟩
    simp only [matchAt, if_true]
    have h1 : (u ++ '.' :: t).takeWhile isIdChar = u :=
      takeWhile_append_run isIdChar u '.' t hall (by decide)
    have h2 : (u ++ '.' :: t).dropWhile isIdChar = '.' :: t :=
      dropWhile_append_run isIdChar u '.' t hall (by decide)
    rw [h1, h2, if_neg hu]
    simp [ht]

/-- The newline-adjusted one-position shape is exactly a `matchAt` success. -/
theorem shapeAtNL_iff_matchAt (s u : List Char) :
    shapeAtNL s u = true ↔ matchAt s = some u := by
  rw [matchAt_eq_some_iff]
  constructor
  · intro h
    rw [shapeAtNL] at h
    simp only [Bool.and_eq_true] at h
    obtain ⟨⟨⟨hne, hall⟩, hsw⟩, ht⟩ := h
    obtain ⟨t, rfl⟩ := (startsWithL_iff _ _).mp hsw
    have hdrop : (('_' :: (u ++ ['.'])) ++ t).drop (u.length + 2) = t := by
      apply List.drop_left'
      simp
    rw [hdrop] at ht
    refine ⟨t, by simp, ?_, hall, ht⟩
    simpa using hne
  · rintro ⟨t, rfl, hu, hall, ht⟩
    rw [shapeAtNL]
    simp only [Bool.and_eq_true]
    have hform : ('_' :: (u ++ '.' :: t)) = ('_' :: (u ++ ['.'])) ++ t := by simp
    refine ⟨⟨⟨by simpa using hu, hall⟩, ?_⟩, ?_⟩
    · rw [hform]
      exact (startsWithL_iff _ _).mpr ⟨t, rfl⟩
    · rw [hform, List.drop_left' (by simp)]
      exact ht

/-! ### Extractor: the match position is unique

Inside the suffix consumed by a successful `matchAt` — an identifier run, a
dot, and a word run with optional final newline — no further `matchAt` can
start, so `re.search`'s leftmost match is the only match. -/

theorem not_dot_mem_wordrun (w : List Char) (hw : w.all isWordChar = true) : '.' ∉ w := by
  intro hmem
  have := List.all_eq_true.mp hw _ hmem
  exact absurd this (by decide)

/-- No match starts inside a word run followed by an optional newline. -/
theorem searchGroup_wordrun_none (w : List Char) :
    ∀ nl, w.all isWordChar = true → (nl = [] ∨ nl = ['\n']) →
      searchGroup (w ++ nl) = none := by
  induction w with
  | nil =>
    rintro nl _ (rfl | rfl)
    · simp [searchGroup]
    · rcases hm : matchAt ['\n'] with _ | r
      · simp [searchGroup, hm]
      · obtain ⟨t, heq, -, -, -⟩ := (matchAt_eq_some_iff _ _).mp hm
        simp at heq
  | cons a as ih =>
    rintro nl hw hnl
    rw [List.all_cons, Bool.and_eq_true] at hw
    rw [List.cons_append]
    rcases hm : matchAt (a :: (as ++ nl)) with _ | r
    · simp only [searchGroup, hm]
      exact ih nl hw.2 hnl
    · obtain ⟨t, heq, hne, -, -⟩ := (matchAt_eq_some_iff _ _).mp hm
      simp only [List.cons.injEq] at heq
      obtain ⟨rfl, htail⟩ := heq
      have hdot : '.' ∈ as ++ nl := by
        rw [htail]
        simp
      rcases List.mem_append.mp hdot with hin | hin
      · exact absurd (List.all_eq_true.mp hw.2 _ hin) (by decide)
      · rcases hnl with rfl | rfl
        · simp at hin
        · simp at hin

/-- No match starts inside `<idrun> . <wordrun> <nl?>`. -/
theorem searchGroup_idrun_dot_none (r : List Char) :
    ∀ w nl, r.all isIdChar = true → w.all isWordChar = true → (nl = [] ∨ nl = ['\n']) →
      searchGroup (r ++ '.' :: (w ++ nl)) = none := by
  induction r with
  | nil =>
    intro w nl _ hw hnl
    rw [List.nil_append]
    rcases hm : matchAt ('.' :: (w ++ nl)) with _ | r'
    · simp only [searchGroup, hm]
      exact searchGroup_wordrun_none w nl hw hnl
    · obtain ⟨t, heq, -, -, -⟩ := (matchAt_eq_some_iff _ _).mp hm
      simp at heq
  | cons a as ih =>
    intro w nl hr hw hnl
    rw [List.all_cons, Bool.and_eq_true] at hr
    rw [List.cons_append]
    rcases hm : matchAt (a :: (as ++ '.' :: (w ++ nl))) with _ | r'
    · simp only [searchGroup, hm]
      exact ih w nl hr.2 hw hnl
    · obtain ⟨t, heq, -, -, -⟩ := (matchAt_eq_some_iff _ _).mp hm
      simp only [List.cons.injEq] at heq
      have := hr.1
      rw [heq.1] at this
      exact absurd this (by decide)

/-- After a successful `matchAt`, no further match starts in the remainder
of the string. -/
theorem searchGroup_tail_none (c : Char) (cs : List Char) (r : List Char)
    (h : matchAt (c :: cs) = some r) : searchGroup cs = none := by
  obtain ⟨t, heq, -, hall, ht⟩ := (matchAt_eq_some_iff _ _).mp h
  simp only [List.cons.injEq] at heq
  obtain ⟨-, rfl⟩ := heq
  obtain ⟨w, -, hw, (rfl | rfl)⟩ := (tailOk_iff t).mp ht
  · have h0 := searchGroup_idrun_dot_none r t [] hall hw (Or.inl rfl)
    simpa using h0
  · exact searchGroup_idrun_dot_none r w ['\n'] hall hw (Or.inr rfl)

/-- `re.search` finds the (unique) match regardless of what precedes it. -/
theorem searchGroup_append_of_matchAt (s u : List Char) (h : matchAt s = some u) :
    ∀ p, searchGroup (p ++ s) = some u := by
  intro p
  induction p with
  | nil =>
    obtain ⟨t, heq, -, -, -⟩ := (matchAt_eq_some_iff _ _).mp h
    rw [List.nil_append, heq]
    rw [heq] at h
    simp only [searchGroup, h]
  | cons c p' ih =>
    rw [List.cons_append]
    rcases hm : matchAt (c :: (p' ++ s)) with _ | r
    · simp only [searchGroup, hm]
      exact ih
    · have hnone := searchGroup_tail_none c (p' ++ s) r hm
      rw [ih] at hnone
      exact absurd hnone (by simp)

/-- Scan equivalence: the code pipeline (acceptance filter + leftmost
search) yields `u` exactly when the name matches the newline-adjusted
shape with identifier `u`. -/
theorem matchesShapeNL_iff_code (f u : List Char) :
    matchesShapeNL f u = true ↔ (filterAccepts f = true ∧ searchGroup f = some u) := by
  induction f with
  | nil => simp [matchesShapeNL, filterAccepts]
  | cons c cs ih =>
    rw [matchesShapeNL, filterAccepts]
    rcases hm : matchAt (c :: cs) with _ | r
    · have hshape : shapeAtNL (c :: cs) u = false := by
        rcases hx : shapeAtNL (c :: cs) u with _ | _
        · rfl
        · have hmm := (shapeAtNL_iff_matchAt _ _).mp hx
          rw [hm] at hmm
          exact absurd hmm (by simp)
      simp only [hshape, Bool.false_or, searchGroup, hm, Option.isSome_none,
        Bool.and_eq_true, bne_iff_ne, ih]
      tauto
    · have hnone := searchGroup_tail_none c cs r hm
      simp only [searchGroup, hm, Option.isSome_some, Bool.true_or, true_and,
        Bool.or_eq_true, Bool.and_eq_true, bne_iff_ne, ih, hnone]
      rw [shapeAtNL_iff_matchAt, hm]
      simp

/-! ### Extractor: set semantics of the result list -/

theorem mem_insertUnique (acc : List (List Char)) (r u : List Char) :
    u ∈ insertUnique acc r ↔ u ∈ acc ∨ u = r := by
  rw [insertUnique]
  split_ifs with h
  · constructor
    · exact Or.inl
    · rintro (hu | rfl)
      · exact hu
      · exact h
  · simp

theorem nodup_insertUnique (acc : List (List Char)) (r : List Char) (h : acc.Nodup) :
    (insertUnique acc r).Nodup := by
  rw [insertUnique]
  split_ifs with hr
  · exact h
  · simp [List.nodup_append, h, hr]

theorem mem_extract_foldl (files : List (List Char)) :
    ∀ acc u, u ∈ files.foldl extractStep acc ↔
      u ∈ acc ∨ ∃ f ∈ files, filterAccepts f = true ∧ searchGroup f = some u := by
  induction files with
  | nil => intro acc u; simp
  | cons f fs ih =>
    intro acc u
    rw [List.foldl_cons, ih]
    have hstep : u ∈ extractStep acc f ↔
        u ∈ acc ∨ (filterAccepts f = true ∧ searchGroup f = some u) := by
      rw [extractStep]
      split_ifs with hf
      · rcases hs : searchGroup f with _ | r
        · simp [hs]
        · rw [mem_insertUnique]
          simp [hs, hf, eq_comm]
      · simp [hf]
    rw [hstep]
    constructor
    · rintro ((h | h) | ⟨g, hg, hp⟩)
      · exact Or.inl h
      · exact Or.inr ⟨f, List.mem_cons_self f fs, h⟩
      · exact Or.inr ⟨g, List.mem_cons_of_mem f hg, hp⟩
    · rintro (h | ⟨g, hg, hp⟩)
      · exact Or.inl (Or.inl h)
      · rcases List.mem_cons.mp hg with rfl | hg'
        · exact Or.inl (Or.inr hp)
        · exact Or.inr ⟨g, hg', hp⟩

theorem nodup_extract_foldl (files : List (List Char)) :
    ∀ acc, acc.Nodup → (files.foldl extractStep acc).Nodup := by
  induction files with
  | nil => intro acc h; simpa
  | cons f fs ih =>
    intro acc h
    rw [List.foldl_cons]
    apply ih
    rw [extractStep]
    split_ifs with hf
    · rcases hs : searchGroup f with _ | r
      · exact h
      · exact nodup_insertUnique acc r h
    · exact h

/-! ### C5: what the extractor returns -/

/-- C5 counterexample: the file `a\nx_b.pdf` matches the spec's pattern
`<anything>_<id>.<ext>` with identifier `b` (prefix `a\nx`, extension
`pdf`), yet the extractor returns nothing for it — Python's `.*` cannot
cross the newline in the prefix, so the acceptance filter rejects the name.
This refutes "the extractor returns exactly the set of identifiers
occurring in filenames matching the pattern". -/
theorem extractor_misses_file_with_newline_prefix :
    matchesShapeWith "a\nx_b.pdf".toList "b".toList = true
    ∧ extract_unique_usernames_from_files ["a\nx_b.pdf".toList] = [] := by
  exact ⟨by decide, by decide⟩

/-- C5 amended: the extractor returns exactly the distinct identifiers of
filenames matching `<anything>_<id>.<ext>` where the prefix is
newline-free and the word-run extension may carry one final trailing
newline (Python `.*` / `$` semantics); each such identifier appears exactly
once, and no token comes from any other filename. -/
theorem extractor_yields_exactly_adjusted_shape_ids (files : List (List Char))
    (u : List Char) :
    (u ∈ extract_unique_usernames_from_files files ↔
      ∃ f ∈ files, matchesShapeNL f u = true)
    ∧ (extract_unique_usernames_from_files files).Nodup := by
  constructor
  · rw [extract_unique_usernames_from_files, mem_extract_foldl files [] u]
    simp only [List.not_mem_nil, false_or]
    constructor
    · rintro ⟨f, hf, hp⟩
      exact ⟨f, hf, (matchesShapeNL_iff_code f u).mpr hp⟩
    · rintro ⟨f, hf, hp⟩
      exact ⟨f, hf, (matchesShapeNL_iff_code f u).mp hp⟩
  · exact nodup_extract_foldl files [] List.nodup_nil

/-! ### C10: which underscore the token comes from -/

/-- C10 counterexample: `a_b.c_d` is accepted by the filter (it appears in
the output) and yields the token `b` — taken from the *first* underscore —
although the maximal identifier run after the file's last underscore is
`d`.  The `\w+` extension may itself contain an underscore, so "the token
always comes from the last underscore" is refuted. -/
theorem token_not_from_last_underscore_with_underscore_extension :
    extract_unique_usernames_from_files ["a_b.c_d".toList] = ["b".toList]
    ∧ "a_b.c_d".toList = "a_b.c".toList ++ '_' :: "d".toList
    ∧ '_' ∉ "d".toList
    ∧ "d".toList.takeWhile isIdChar = "d".toList
    ∧ "b".toList ≠ "d".toList := by
  refine ⟨by decide, by decide, by decide, by decide, by decide⟩

/-- C10 amended: whenever the name decomposes as
`pre ++ '_' ++ u ++ '.' ++ ext` with `u` a nonempty identifier run and
`ext` a nonempty word run *free of underscores* reaching the end, the
search yields exactly `u`; the exhibited underscore is then the last
underscore of the name (nothing after it is an underscore) and `u` is the
maximal identifier run following it. -/
theorem token_from_last_underscore_when_extension_clean (f u pre ext : List Char)
    (hf : f = pre ++ '_' :: (u ++ '.' :: ext))
    (hu : u ≠ []) (hall : u.all isIdChar = true)
    (hext : ext ≠ []) (hextw : ext.all isWordChar = true) (hextu : '_' ∉ ext) :
    searchGroup f = some u
    ∧ '_' ∉ u ++ '.' :: ext
    ∧ (u ++ '.' :: ext).takeWhile isIdChar = u := by
  have hm : matchAt ('_' :: (u ++ '.' :: ext)) = some u := by
    rw [matchAt_eq_some_iff]
    exact ⟨ext, rfl, hu, hall, (tailOk_iff ext).mpr ⟨ext, hext, hextw, Or.inl rfl⟩⟩
  refine ⟨?_, ?_, ?_⟩
  · rw [hf]
    exact searchGroup_append_of_matchAt _ _ hm pre
  · intro hmem
    rcases List.mem_append.mp hmem with hin | hin
    · have hh := List.all_eq_true.mp hall _ hin
      exact absurd hh (by decide)
    · rcases List.mem_cons.mp hin with h1 | h1
      · exact absurd h1 (by decide)
      · exact hextu h1
  · exact takeWhile_append_run isIdChar u '.' ext hall (by decide)

/-- C10 amended witness: `report_a_b.pdf` yields `b` from its last
underscore. -/
theorem token_from_last_underscore_witness :
    searchGroup "report_a_b.pdf".toList = some "b".toList
    ∧ '_' ∉ ("b".toList ++ '.' :: "pdf".toList)
    ∧ ("b".toList ++ '.' :: "pdf".toList).takeWhile isIdChar = "b".toList :=
  token_from_last_underscore_when_extension_clean "report_a_b.pdf".toList "b".toList
    "report_a".toList "pdf".toList (by decide) (by decide) (by decide) (by decide)
    (by decide) (by decide)

/-! ### C3: the dispatcher's file-selection predicate -/

/-- C3 counterexample: for the identifier `a(b)` the file `x_a(b).pdf` —
whose name literally contains `a(b).pdf` — is *not* selected, because the
parentheses are interpolated into the regex as a group and the pattern
matches `ab` plus any character plus `pdf` instead.  This refutes "a file
is selected iff its name contains the identifier followed by `.pdf`,
including when the identifier contains parentheses". -/
theorem paren_identifier_file_not_selected :
    selectsFile "a(b)".toList "x_a(b).pdf".toList = some false
    ∧ containsSeq "a(b).pdf".toList "x_a(b).pdf".toList = true
    ∧ selectsFile "a(b)".toList "x_abZpdf".toList = some true := by
  refine ⟨by decide, by decide, by decide⟩

theorem plain_char_facts (c : Char) (h : (c.isAlphanum || c == '-') = true) :
    (c == '(') = false ∧ (c == ')') = false ∧ isIdChar c = true := by
  rw [Bool.or_eq_true, beq_iff_eq] at h
  rcases h with h | rfl
  · refine ⟨?_, ?_, ?_⟩
    · by_cases hc : c = '('
      · rw [hc] at h
        exact absurd h (by decide)
      · exact beq_eq_false_iff_ne.mpr hc
    · by_cases hc : c = ')'
      · rw [hc] at h
        exact absurd h (by decide)
      · exact beq_eq_false_iff_ne.mpr hc
    · simp [isIdChar, h]
  · exact ⟨by decide, by decide, by decide⟩

theorem compileAtoms_plain (u : List Char)
    (hu : u.all (fun c => c.isAlphanum || c == '-') = true) :
    compileAtoms u 0 = some (u.map Atom.lit) := by
  induction u with
  | nil => rfl
  | cons c cs ih =>
    rw [List.all_cons, Bool.and_eq_true] at hu
    obtain ⟨h1, h2, h3⟩ := plain_char_facts c hu.1
    simp [compileAtoms, h1, h2, h3, ih hu.2]

theorem atomsHere_lit_append (p : List Char) :
    ∀ rest s, atomsHere (p.map Atom.lit ++ rest) s = true ↔
      ∃ s', s = p ++ s' ∧ atomsHere rest s' = true := by
  induction p with
  | nil => intro rest s; simp
  | cons a as ih =>
    intro rest s
    cases s with
    | nil =>
      rw [List.map_cons, List.cons_append]
      simp [atomsHere]
    | cons b bs =>
      rw [List.map_cons, List.cons_append, atomsHere]
      simp only [Bool.and_eq_true, atomMatches, beq_iff_eq, ih rest bs]
      constructor
      · rintro ⟨rfl, s', rfl, h⟩
        exact ⟨s', rfl, h⟩
      · rintro ⟨s', hs, h⟩
        simp only [List.cons_append, List.cons.injEq] at hs
        exact ⟨hs.1.symm, s', hs.2, h⟩

theorem atomsHere_pdfTail (s : List Char) :
    atomsHere [Atom.anyc, Atom.lit 'p', Atom.lit 'd', Atom.lit 'f'] s = true ↔
      ∃ c r, s = c :: 'p' :: 'd' :: 'f' :: r ∧ c ≠ '\n' := by
  constructor
  · intro h
    rcases s with _ | ⟨c1, _ | ⟨c2, _ | ⟨c3, _ | ⟨c4, r⟩⟩⟩⟩
    · simp [atomsHere] at h
    · simp [atomsHere, atomMatches] at h
    · simp [atomsHere, atomMatches] at h
    · simp [atomsHere, atomMatches] at h
    · simp only [atomsHere, atomMatches, Bool.and_eq_true, bne_iff_ne, beq_iff_eq] at h
      exact ⟨c1, r, by rw [h.2.1, h.2.2.1, h.2.2.2.1], h.1⟩
  · rintro ⟨c, r, rfl, hc⟩
    simp [atomsHere, atomMatches, hc]

theorem atomsSearch_iff (as : List Atom) (s : List Char) :
    atomsSearch as s = true ↔ ∃ l t, s = l ++ t ∧ atomsHere as t = true := by
  induction s with
  | nil =>
    rw [atomsSearch]
    constructor
    · intro h
      exact ⟨[], [], rfl, h⟩
    · rintro ⟨l, t, hs, h⟩
      obtain ⟨rfl, rfl⟩ := List.append_eq_nil.mp hs.symm
      exact h
  | cons c cs ih =>
    rw [atomsSearch]
    simp only [Bool.or_eq_true, ih]
    constructor
    · rintro (h | ⟨l, t, rfl, h⟩)
      · exact ⟨[], c :: cs, rfl, h⟩
      · exact ⟨c :: l, t, rfl, h⟩
    · rintro ⟨l, t, hs, h⟩
      rcases l with _ | ⟨x, l'⟩
      · rw [List.nil_append] at hs
        exact Or.inl (hs ▸ h)
      · simp only [List.cons_append, List.cons.injEq] at hs
        exact Or.inr ⟨l', t, hs.2, h⟩

/-- C3 amended: for identifiers of alphanumerics and hyphens (no
parentheses), the dispatcher selects a file exactly when its name contains
the identifier followed by *any* single non-newline character and then
`pdf`, anywhere in the name — `.` is a regex wildcard and nothing anchors
`.pdf` as a literal suffix.  (Parenthesised identifiers are matched with
the parentheses stripped, as the counterexample shows.) -/
theorem selection_matches_wildcard_shape_for_plain_identifiers (u f : List Char)
    (hu : u.all (fun c => c.isAlphanum || c == '-') = true) :
    selectsFile u f = some true ↔
      ∃ l c r, f = l ++ (u ++ (c :: 'p' :: 'd' :: 'f' :: r)) ∧ c ≠ '\n' := by
  rw [selectsFile, dispatcherPattern, compileAtoms_plain u hu]
  simp only [Option.map_some', Option.some.injEq]
  constructor
  · intro h
    obtain ⟨l, t, rfl, ht⟩ := (atomsSearch_iff _ _).mp h
    obtain ⟨s', rfl, h2⟩ := (atomsHere_lit_append u _ t).mp ht
    obtain ⟨c, r, rfl, hc⟩ := (atomsHere_pdfTail s').mp h2
    exact ⟨l, c, r, rfl, hc⟩
  · rintro ⟨l, c, r, rfl, hc⟩
    apply (atomsSearch_iff _ _).mpr
    refine ⟨l, u ++ (c :: 'p' :: 'd' :: 'f' :: r), rfl, ?_⟩
    apply (atomsHere_lit_append u _ _).mpr
    refine ⟨c :: 'p' :: 'd' :: 'f' :: r, rfl, ?_⟩
    exact (atomsHere_pdfTail _).mpr ⟨c, r, rfl, hc⟩

/-- C3 amended witness: `alice` selects `report_alice.pdf`. -/
theorem selection_matches_wildcard_shape_witness :
    ∃ l c r, "report_alice.pdf".toList
        = l ++ ("alice".toList ++ (c :: 'p' :: 'd' :: 'f' :: r)) ∧ c ≠ '\n' :=
  (selection_matches_wildcard_shape_for_plain_identifiers "alice".toList
    "report_alice.pdf".toList (by decide)).mp (by decide)
